import Mathlib

/-!
Verification of the native text-buffer of the CodeEditor repository
(`src/rust/editor-native/src/native_text_buffer.rs`).

The Rust file is a JNI binding layer over the `ropey` crate's `Rope`.
The binding functions and their integer casts (`jint as usize`,
`char as u16`, `usize as jint`) are embedded directly from the source.
The `Rope` operations themselves (`ropey` is an external crate, not part
of the repository's sources) are modelled by their documented contract:
a `Rope` is semantically a sequence of Unicode scalar values, operations
are char-indexed, and every out-of-bounds access panics.  A panic that
crosses the JNI boundary aborts the process, so panicking calls are
embedded as `Option.none`; successful calls return `some`.

Line breaks follow ropey's default (`unicode_lines`) recognition: LF,
VT, FF, CR, NEL, LS, PS, and the pair CR LF counts as a single break.
-/

namespace CodeEditor

/-- A `ropey::Rope` modelled by its abstract content: the sequence of
Unicode scalar values it stores. -/
abbrev Rope := List Char

/-- `Rope::len_chars`: number of chars in the rope. -/
def lenChars (r : Rope) : Nat := r.length

/-- The line-break characters ropey recognises (default `unicode_lines`
feature): LF, VT, FF, CR, NEL, LS, PS. -/
def isLineBreakChar (c : Char) : Bool :=
  c = '\n' ∨ c.toNat = 0x0B ∨ c.toNat = 0x0C ∨ c = '\r' ∨
    c.toNat = 0x85 ∨ c.toNat = 0x2028 ∨ c.toNat = 0x2029

/-- Number of line terminators in a char sequence; a CR immediately
followed by LF counts as a single terminator. -/
def countBreaks : List Char → Nat
  | [] => 0
  | '\r' :: '\n' :: rest => countBreaks rest + 1
  | c :: rest => countBreaks rest + (if isLineBreakChar c then 1 else 0)

/-- Split a char sequence into its lines, terminator-inclusive: every
line except the last ends with its line terminator (CR LF stays on one
line), and the last line has no terminator (it may be empty). -/
def splitLines : List Char → List (List Char)
  | [] => [[]]
  | '\r' :: '\n' :: rest => ['\r', '\n'] :: splitLines rest
  | c :: rest =>
    if isLineBreakChar c then
      [c] :: splitLines rest
    else
      match splitLines rest with
      | [] => [[c]]
      | l :: ls => (c :: l) :: ls

/-- `Rope::len_lines`: number of lines (number of breaks plus one). -/
def lenLines (r : Rope) : Nat := (splitLines r).length

/-- Char index of the start of line `l` in a list of lines: total
length of the lines preceding it. -/
def lineStart (L : List (List Char)) (l : Nat) : Nat :=
  ((L.take l).map List.length).sum

/-- Index of the line containing char offset `c` in a list of lines;
an offset equal to the total length lands on the last line. -/
def lineOfChar : List (List Char) → Nat → Nat
  | [], _ => 0
  | [_], _ => 0
  | l :: ls, c => if c < l.length then 0 else lineOfChar ls (c - l.length) + 1

/-- `Java_..._createRope`: builds a rope from the passed string
(`Rope::from_str`), which stores exactly the string's chars. -/
def createRope (s : String) : Rope := s.data

/-- `Java_..._ropeToString`: materializes the whole rope
(`rope.to_string()`). -/
def ropeToString (r : Rope) : String := String.mk r

/-- `Rope::insert(idx, text)` as called by `Java_..._ropeInsert`:
splices `text` at char index `idx`; panics (here `none`) when
`idx > len_chars()`. -/
def ropeInsert (r : Rope) (idx : Nat) (text : List Char) : Option Rope :=
  if idx ≤ r.length then some (r.take idx ++ text ++ r.drop idx) else none

/-- `Rope::remove(start..end)` as called by `Java_..._ropeRemove`:
deletes chars in `[start, end)`; panics (here `none`) when
`start > end` or `end > len_chars()`. -/
def ropeRemove (r : Rope) (start stop : Nat) : Option Rope :=
  if start ≤ stop ∧ stop ≤ r.length then some (r.take start ++ r.drop stop)
  else none

/-- `rope.slice(start..end).to_string()` as in `Java_..._ropeSlice`:
copy of the chars in `[start, end)`; panics (here `none`) when
`start > end` or `end > len_chars()`. -/
def ropeSlice (r : Rope) (start stop : Nat) : Option (List Char) :=
  if start ≤ stop ∧ stop ≤ r.length then some ((r.drop start).take (stop - start))
  else none

/-- `Rope::char(idx)`: the char at index `idx`; panics (here `none`)
when `idx ≥ len_chars()`. -/
def charAt (r : Rope) (idx : Nat) : Option Char :=
  r.get? idx

/-- Rust `char as u16`: truncation of the scalar value to 16 bits. -/
def charAsU16 (c : Char) : Nat := c.toNat % 2 ^ 16

/-- `Java_..._ropeGetChar`: `rope.char(index) as jchar` — the char's
scalar value truncated to 16 bits; panics (here `none`) when
`index ≥ len_chars()`. -/
def ropeGetChar (r : Rope) (idx : Nat) : Option Nat :=
  (charAt r idx).map charAsU16

/-- `Rope::line_to_char(line)` as called by `Java_..._ropeLineToChar`:
char index of the first char of line `line`; `line = len_lines()` is
the one-past-end sentinel yielding `len_chars()`; panics (here `none`)
when `line > len_lines()`. -/
def ropeLineToChar (r : Rope) (line : Nat) : Option Nat :=
  if line ≤ lenLines r then some (lineStart (splitLines r) line) else none

/-- `Rope::char_to_line(char_idx)` as called by
`Java_..._ropeCharToLine`: index of the line containing `char_idx`;
`char_idx = len_chars()` yields the last line; panics (here `none`)
when `char_idx > len_chars()`. -/
def ropeCharToLine (r : Rope) (charIdx : Nat) : Option Nat :=
  if charIdx ≤ lenChars r then some (lineOfChar (splitLines r) charIdx)
  else none

/-- `Rope::line(line_idx)` as used by `Java_..._ropeGetLine` and
`Java_..._ropeLineLen`: the content of line `line_idx`, trailing
terminator included; panics (here `none`) when
`line_idx ≥ len_lines()`. -/
def ropeGetLine (r : Rope) (lineIdx : Nat) : Option (List Char) :=
  (splitLines r).get? lineIdx

/-- `Java_..._ropeLineLen`: `rope.line(line).len_chars()`. -/
def ropeLineLen (r : Rope) (lineIdx : Nat) : Option Nat :=
  (ropeGetLine r lineIdx).map List.length

/-- Modelled from the spec: the byte source read by
`Java_..._createRopeFromFile` (a filesystem path opened with
`File::open` and read through `BufReader`).  Reading either fails with
an I/O error (file unopenable or a read error mid-stream) or yields the
complete byte content; the repository contains only the binding, not
the reader. -/
inductive ByteSource where
  | ioError : ByteSource
  | bytes : List UInt8 → ByteSource

/-- A UTF-8 continuation byte: `0x80 ≤ b < 0xC0`. -/
def isCont (b : UInt8) : Bool := 0x80 ≤ b.toNat ∧ b.toNat < 0xC0

/-- Modelled from the spec: the UTF-8 decoding performed by
`Rope::from_reader` (the `ropey` crate is external to the repository).
Strict UTF-8: rejects overlong forms, surrogates and code points above
`0x10FFFF`; returns `none` on any invalid byte (`DecodeFailure`),
otherwise the full decoded char sequence. -/
def utf8Decode : List UInt8 → Option (List Char)
  | [] => some []
  | b0 :: rest =>
    if b0.toNat < 0x80 then
      (utf8Decode rest).map (fun cs => Char.ofNat b0.toNat :: cs)
    else if b0.toNat < 0xC2 then none
    else if b0.toNat < 0xE0 then
      match rest with
      | b1 :: rest2 =>
        if isCont b1 then
          (utf8Decode rest2).map
            (fun cs => Char.ofNat ((b0.toNat - 0xC0) * 0x40 + (b1.toNat - 0x80)) :: cs)
        else none
      | _ => none
    else if b0.toNat < 0xF0 then
      match rest with
      | b1 :: b2 :: rest2 =>
        if isCont b1 ∧ isCont b2 ∧
            (b0.toNat = 0xE0 → 0xA0 ≤ b1.toNat) ∧ (b0.toNat = 0xED → b1.toNat < 0xA0) then
          (utf8Decode rest2).map
            (fun cs => Char.ofNat ((b0.toNat - 0xE0) * 0x1000 +
              (b1.toNat - 0x80) * 0x40 + (b2.toNat - 0x80)) :: cs)
        else none
      | _ => none
    else if b0.toNat < 0xF5 then
      match rest with
      | b1 :: b2 :: b3 :: rest3 =>
        if isCont b1 ∧ isCont b2 ∧ isCont b3 ∧
            (b0.toNat = 0xF0 → 0x90 ≤ b1.toNat) ∧ (b0.toNat = 0xF4 → b1.toNat < 0x90) then
          (utf8Decode rest3).map
            (fun cs => Char.ofNat ((b0.toNat - 0xF0) * 0x40000 +
              (b1.toNat - 0x80) * 0x1000 + (b2.toNat - 0x80) * 0x40 + (b3.toNat - 0x80)) :: cs)
        else none
      | _ => none
    else none

/-- `Java_..._createRopeFromFile`: opens and reads the path,
`Rope::from_reader` decodes it; returns the null handle `0` (here
`none`) when opening/reading fails (`IoFailure`) or the bytes are not
valid UTF-8 (`DecodeFailure`); otherwise a rope holding the complete
decoded content. -/
def createRopeFromFile (src : ByteSource) : Option Rope :=
  match src with
  | .ioError => none
  | .bytes bs =>
    match utf8Decode bs with
    | none => none
    | some cs => some cs

/-- The JNI `jint as usize` cast on a 64-bit target: sign-extension of
the 32-bit value to 64 bits, reinterpreted unsigned. -/
def jintToUsize (i : Int) : Nat := (i % 2 ^ 64).toNat

/-- `Java_..._ropeInsert` with its raw `jint` index argument. -/
def ropeInsertJ (r : Rope) (idx : Int) (text : List Char) : Option Rope :=
  ropeInsert r (jintToUsize idx) text

/-- `Java_..._ropeRemove` with its raw `jint` range arguments. -/
def ropeRemoveJ (r : Rope) (start stop : Int) : Option Rope :=
  ropeRemove r (jintToUsize start) (jintToUsize stop)

/-- `Java_..._ropeSlice` with its raw `jint` range arguments. -/
def ropeSliceJ (r : Rope) (start stop : Int) : Option (List Char) :=
  ropeSlice r (jintToUsize start) (jintToUsize stop)

/-- `Java_..._ropeGetChar` with its raw `jint` index argument. -/
def ropeGetCharJ (r : Rope) (idx : Int) : Option Nat :=
  ropeGetChar r (jintToUsize idx)

/-- `Java_..._ropeLineToChar` with its raw `jint` argument. -/
def ropeLineToCharJ (r : Rope) (line : Int) : Option Nat :=
  ropeLineToChar r (jintToUsize line)

/-- `Java_..._ropeCharToLine` with its raw `jint` argument. -/
def ropeCharToLineJ (r : Rope) (charIdx : Int) : Option Nat :=
  ropeCharToLine r (jintToUsize charIdx)

/-- `Java_..._ropeGetLine` with its raw `jint` argument. -/
def ropeGetLineJ (r : Rope) (lineIdx : Int) : Option (List Char) :=
  ropeGetLine r (jintToUsize lineIdx)

/-- `Java_..._ropeLineLen` with its raw `jint` argument. -/
def ropeLineLenJ (r : Rope) (lineIdx : Int) : Option Nat :=
  ropeLineLen r (jintToUsize lineIdx)

/-- C1: building a rope from a string and materializing it returns the
same string: `ropeToString (createRope S) = S`. -/
theorem createRope_ropeToString_roundTrip (s : String) :
    ropeToString (createRope s) = s := by
  cases s
  rfl

/-- `splitLines` always yields at least one line. -/
theorem splitLines_ne_nil (l : List Char) : splitLines l ≠ [] := by
  induction l using splitLines.induct
  all_goals simp_all [splitLines]

/-- The number of lines is the number of line terminators plus one. -/
theorem splitLines_length (l : List Char) :
    (splitLines l).length = countBreaks l + 1 := by
  induction l using splitLines.induct
  all_goals simp_all [splitLines, countBreaks]

/-- Concatenating the lines restores the original char sequence. -/
theorem splitLines_flatten (l : List Char) : (splitLines l).flatten = l := by
  induction l using splitLines.induct
  all_goals simp_all [splitLines]

/-- The line lengths sum to the total char count. -/
theorem sum_splitLines (l : List Char) :
    ((splitLines l).map List.length).sum = l.length := by
  rw [← List.length_flatten, splitLines_flatten]

theorem lineStart_zero (L : List (List Char)) : lineStart L 0 = 0 := rfl

theorem lineStart_cons_succ (l : List Char) (ls : List (List Char)) (k : Nat) :
    lineStart (l :: ls) (k + 1) = l.length + lineStart ls k := by
  simp [lineStart, List.take_succ_cons]

theorem lineStart_length (L : List (List Char)) :
    lineStart L L.length = (L.map List.length).sum := by
  simp [lineStart]

/-- A char offset below the total length lands on a line index below
the number of lines. -/
theorem lineOfChar_lt :
    ∀ (L : List (List Char)) (c : Nat), L ≠ [] → lineOfChar L c < L.length
  | [], _, h => absurd rfl h
  | [_], _, _ => by simp [lineOfChar]
  | l :: l2 :: ls, c, _ => by
    by_cases hc : c < l.length
    · simp [lineOfChar, hc]
    · have ih := lineOfChar_lt (l2 :: ls) (c - l.length) (by simp)
      simp only [lineOfChar, if_neg hc]
      simp only [List.length_cons] at ih ⊢
      omega

/-- The located line's start is at most the offset, and the next line's
start is strictly beyond it. -/
theorem lineOfChar_bounds :
    ∀ (L : List (List Char)) (c : Nat), c < (L.map List.length).sum →
      lineStart L (lineOfChar L c) ≤ c ∧ c < lineStart L (lineOfChar L c + 1)
  | [], c, h => by simp at h
  | [l], c, h => by
    simp only [List.map, List.sum_cons, List.sum_nil, Nat.add_zero] at h
    simp only [lineOfChar, lineStart_zero, Nat.zero_add, lineStart_cons_succ]
    exact ⟨Nat.zero_le c, by simpa [lineStart] using h⟩
  | l :: l2 :: ls, c, h => by
    by_cases hc : c < l.length
    · simp only [lineOfChar, if_pos hc, lineStart_zero, lineStart_cons_succ]
      exact ⟨Nat.zero_le c, by simpa [lineStart] using hc⟩
    · have hsum : c - l.length < ((l2 :: ls).map List.length).sum := by
        simp only [List.map, List.sum_cons] at h ⊢
        omega
      have ih := lineOfChar_bounds (l2 :: ls) (c - l.length) hsum
      simp only [lineOfChar, if_neg hc]
      simp only [lineStart_cons_succ] at ih ⊢
      omega

/-- Each line terminator consumes at least one char. -/
theorem countBreaks_le (l : List Char) : countBreaks l ≤ l.length := by
  induction l using countBreaks.induct
  all_goals simp_all [countBreaks]
  · omega
  · split <;> omega

/-- A rope never has more lines than chars plus one. -/
theorem lenLines_le (r : Rope) : lenLines r ≤ lenChars r + 1 := by
  rw [lenLines, splitLines_length]
  exact Nat.succ_le_succ (countBreaks_le r)

/-- C2: for any rope `r`, char index `i ≤ lenChars r` and text `t`,
inserting `t` at `i` succeeds and slicing `[i, i + len t)` of the
result returns exactly `t`. -/
theorem insert_then_slice (r : Rope) (i : Nat) (t : List Char)
    (hi : i ≤ lenChars r) :
    ∃ r', ropeInsert r i t = some r' ∧
      ropeSlice r' i (i + t.length) = some t := by
  have hi' : i ≤ r.length := hi
  have hlen : (r.take i).length = i := by
    rw [List.length_take]
    omega
  refine ⟨r.take i ++ t ++ r.drop i, ?_, ?_⟩
  · rw [ropeInsert, if_pos hi']
  · have hdrop : (r.take i ++ t ++ r.drop i).drop i = t ++ r.drop i := by
      rw [List.append_assoc, List.drop_left' hlen]
    have hcond : i ≤ i + t.length ∧
        i + t.length ≤ (r.take i ++ t ++ r.drop i).length := by
      constructor
      · omega
      · simp only [List.length_append, hlen, List.length_drop]
        omega
    rw [ropeSlice, if_pos hcond, hdrop, Nat.add_sub_cancel_left, List.take_left]

/-- C3: for any rope `r` and range `a ≤ b ≤ lenChars r`, removing
`[a, b)` succeeds and decreases the char count by exactly `b - a`. -/
theorem remove_decreases_len (r : Rope) (a b : Nat)
    (hab : a ≤ b) (hb : b ≤ lenChars r) :
    ∃ r', ropeRemove r a b = some r' ∧
      lenChars r' = lenChars r - (b - a) := by
  have hb' : b ≤ r.length := hb
  refine ⟨r.take a ++ r.drop b, ?_, ?_⟩
  · rw [ropeRemove, if_pos ⟨hab, hb'⟩]
  · simp only [lenChars, List.length_append, List.length_take, List.length_drop]
    omega

/-- C4: for a rope built from text with exactly `k` line terminators,
`len_lines` is `k + 1`, `line_to_char 0` is `0`, and
`line_to_char len_lines` is the one-past-end sentinel `len_chars`; the
empty document has `len_chars = 0` and `len_lines = 1`. -/
theorem lineCounting (s : String) (k : Nat) (hk : countBreaks s.data = k) :
    lenLines (createRope s) = k + 1 ∧
    ropeLineToChar (createRope s) 0 = some 0 ∧
    ropeLineToChar (createRope s) (lenLines (createRope s)) =
      some (lenChars (createRope s)) ∧
    lenChars (createRope "") = 0 ∧ lenLines (createRope "") = 1 := by
  refine ⟨?_, ?_, ?_, rfl, rfl⟩
  · rw [lenLines, createRope, splitLines_length, hk]
  · rw [ropeLineToChar, if_pos (Nat.zero_le _), lineStart_zero]
  · rw [ropeLineToChar, if_pos (le_refl _), lenLines, lineStart_length,
      sum_splitLines]
    rfl

/-- C5: for any rope `r` and valid char index `c < lenChars r`, the
start of the line containing `c` is at most `c`, and `c` lies strictly
before the start of the next line (the one-past-end sentinel on the
last line). -/
theorem indexTranslation_inverse (r : Rope) (c : Nat) (hc : c < lenChars r) :
    ∃ l s e, ropeCharToLine r c = some l ∧ ropeLineToChar r l = some s ∧
      ropeLineToChar r (l + 1) = some e ∧ s ≤ c ∧ c < e := by
  have hsum : c < ((splitLines r).map List.length).sum := by
    rw [sum_splitLines]
    exact hc
  have hb := lineOfChar_bounds (splitLines r) c hsum
  have hlt := lineOfChar_lt (splitLines r) c (splitLines_ne_nil r)
  refine ⟨lineOfChar (splitLines r) c,
    lineStart (splitLines r) (lineOfChar (splitLines r) c),
    lineStart (splitLines r) (lineOfChar (splitLines r) c + 1),
    ?_, ?_, ?_, hb.1, hb.2⟩
  · rw [ropeCharToLine, if_pos (Nat.le_of_lt hc)]
  · rw [ropeLineToChar,
      if_pos (show lineOfChar (splitLines r) c ≤ lenLines r from Nat.le_of_lt hlt)]
  · rw [ropeLineToChar,
      if_pos (show lineOfChar (splitLines r) c + 1 ≤ lenLines r from hlt)]

/-- C5 witness: the bounds instantiated on the document `"a\nb"` at
char index 2. -/
theorem indexTranslation_inverse_witness :
    ∃ l s e, ropeCharToLine (createRope "a\nb") 2 = some l ∧
      ropeLineToChar (createRope "a\nb") l = some s ∧
      ropeLineToChar (createRope "a\nb") (l + 1) = some e ∧
      s ≤ 2 ∧ 2 < e :=
  indexTranslation_inverse (createRope "a\nb") 2 (by decide)

/-- C6: the concrete scenario on `"ab\ncd\n"`: counts, line lookups,
then `insert(2, "X")` and `remove(0, 3)` with the expected contents. -/
theorem concreteScenario :
    lenChars (createRope "ab\ncd\n") = 6 ∧
    lenLines (createRope "ab\ncd\n") = 3 ∧
    ropeLineToChar (createRope "ab\ncd\n") 1 = some 3 ∧
    ropeCharToLine (createRope "ab\ncd\n") 4 = some 1 ∧
    ∃ r1 r2, ropeInsert (createRope "ab\ncd\n") 2 "X".data = some r1 ∧
      ropeToString r1 = "abX\ncd\n" ∧ lenChars r1 = 7 ∧
      ropeRemove r1 0 3 = some r2 ∧ ropeToString r2 = "\ncd\n" := by
  refine ⟨by decide, by decide, by decide, by decide,
    "abX\ncd\n".data, "\ncd\n".data, ?_, ?_, ?_, ?_, ?_⟩
  all_goals decide

/-- C2 witness: inserting `"xy"` into `"abc"` at index 1 and slicing it
back out. -/
theorem insert_then_slice_witness :
    ∃ r', ropeInsert (createRope "abc") 1 "xy".data = some r' ∧
      ropeSlice r' 1 (1 + "xy".data.length) = some "xy".data :=
  insert_then_slice (createRope "abc") 1 "xy".data (by decide)

/-- C3 witness: removing `[1, 3)` from `"abcd"`. -/
theorem remove_decreases_len_witness :
    ∃ r', ropeRemove (createRope "abcd") 1 3 = some r' ∧
      lenChars r' = lenChars (createRope "abcd") - (3 - 1) :=
  remove_decreases_len (createRope "abcd") 1 3 (by decide) (by decide)

/-- C4 witness: line counting on `"ab\ncd"` with its one terminator. -/
theorem lineCounting_witness :
    lenLines (createRope "ab\ncd") = 1 + 1 ∧
    ropeLineToChar (createRope "ab\ncd") 0 = some 0 ∧
    ropeLineToChar (createRope "ab\ncd") (lenLines (createRope "ab\ncd")) =
      some (lenChars (createRope "ab\ncd")) ∧
    lenChars (createRope "") = 0 ∧ lenLines (createRope "") = 1 :=
  lineCounting "ab\ncd" 1 (by decide)

/-- C7: construction from a byte source fails exactly on an I/O error
or invalid UTF-8, returning the null handle (`none`); on success the
rope holds the complete decoded content, never a partial prefix. -/
theorem fromFile_atomic (src : ByteSource) :
    (createRopeFromFile src = none ↔
      src = ByteSource.ioError ∨
        ∃ bs, src = ByteSource.bytes bs ∧ utf8Decode bs = none) ∧
    ∀ r, createRopeFromFile src = some r →
      ∃ bs, src = ByteSource.bytes bs ∧ utf8Decode bs = some r := by
  cases src with
  | ioError => simp [createRopeFromFile]
  | bytes bs =>
    cases h : utf8Decode bs with
    | none => simp [createRopeFromFile, h]
    | some cs =>
      constructor
      · simp [createRopeFromFile, h]
      · intro r hr
        simp only [createRopeFromFile, h] at hr
        exact ⟨bs, rfl, by rw [h, hr]⟩

/-- C7 witness: the success case applied to the single byte `0x61`. -/
theorem fromFile_atomic_witness :
    ∃ bs, ByteSource.bytes [(0x61 : UInt8)] = ByteSource.bytes bs ∧
      utf8Decode bs = some ['a'] :=
  (fromFile_atomic (ByteSource.bytes [(0x61 : UInt8)])).2 ['a'] (by decide)

/-- C8: out-of-range indices are rejected, never clamped: an insert
past the end, a char read at or past the end, and a remove or slice
whose end bound exceeds the length all fail (ropey panics; the panic
crossing the boundary is fatal, modelled `none`), uniformly across the
surface. -/
theorem noSilentClamping (r : Rope) (i j a b : Nat) (t : List Char)
    (hi : lenChars r < i) (hj : lenChars r ≤ j) (hb : lenChars r < b) :
    ropeInsert r i t = none ∧ ropeGetChar r j = none ∧
    ropeRemove r a b = none ∧ ropeSlice r a b = none := by
  have hi' : ¬ i ≤ r.length := Nat.not_le.mpr hi
  have hb' : ¬ b ≤ r.length := Nat.not_le.mpr hb
  refine ⟨?_, ?_, ?_, ?_⟩
  · rw [ropeInsert, if_neg hi']
  · have hj' : r.length ≤ j := hj
    rw [ropeGetChar, charAt, List.get?_eq_none.mpr hj', Option.map_none']
  · rw [ropeRemove, if_neg (fun hcl => hb' hcl.2)]
  · rw [ropeSlice, if_neg (fun hcl => hb' hcl.2)]

/-- C8 witness: the four rejections on the one-char document `"a"`. -/
theorem noSilentClamping_witness :
    ropeInsert (createRope "a") 2 [] = none ∧
    ropeGetChar (createRope "a") 1 = none ∧
    ropeRemove (createRope "a") 0 2 = none ∧
    ropeSlice (createRope "a") 0 2 = none :=
  noSilentClamping (createRope "a") 2 1 0 2 []
    (by decide) (by decide) (by decide)

/-- C9: `ropeGetChar` returns the char's scalar value truncated to 16
bits, so any char at or above `0x10000` is not returned faithfully. -/
theorem getChar_truncates (r : Rope) (i : Nat) (c : Char)
    (h : charAt r i = some c) :
    ropeGetChar r i = some (c.toNat % 2 ^ 16) ∧
    (0x10000 ≤ c.toNat → ropeGetChar r i ≠ some c.toNat) := by
  have hget : ropeGetChar r i = some (charAsU16 c) := by
    rw [ropeGetChar, h, Option.map_some']
  constructor
  · exact hget
  · intro hbig heq
    rw [hget] at heq
    have h2 : charAsU16 c = c.toNat := Option.some.inj heq
    have h3 : charAsU16 c < 2 ^ 16 := Nat.mod_lt _ (by decide)
    rw [h2] at h3
    omega

/-- C9 witness: the char `U+1D538` (outside the BMP) comes back as its
low 16 bits, not as itself. -/
theorem getChar_truncates_witness :
    ropeGetChar [Char.ofNat 0x1D538] 0 =
      some ((Char.ofNat 0x1D538).toNat % 2 ^ 16) ∧
    (0x10000 ≤ (Char.ofNat 0x1D538).toNat →
      ropeGetChar [Char.ofNat 0x1D538] 0 ≠ some (Char.ofNat 0x1D538).toNat) :=
  getChar_truncates [Char.ofNat 0x1D538] 0 (Char.ofNat 0x1D538) (by decide)

/-- C10: a negative `jint` index sign-extends to at least
`2^63 - 2^31`, is never 0, and every indexed entry point rejects it on
any document of attainable size (fewer than `2^62` chars): it is never
treated as 0 or as an offset from the end. -/
theorem negativeIndex_rejected (i a b : Int) (r : Rope) (t : List Char)
    (hneg : -2 ^ 31 ≤ i ∧ i < 0) (ha : -2 ^ 31 ≤ a ∧ a < 2 ^ 31)
    (hb : -2 ^ 31 ≤ b ∧ b < 2 ^ 31) (hr : lenChars r < 2 ^ 62) :
    2 ^ 63 - 2 ^ 31 ≤ jintToUsize i ∧ jintToUsize i ≠ 0 ∧
    ropeInsertJ r i t = none ∧ ropeGetCharJ r i = none ∧
    ropeRemoveJ r i b = none ∧ ropeRemoveJ r a i = none ∧
    ropeSliceJ r i b = none ∧ ropeSliceJ r a i = none ∧
    ropeLineToCharJ r i = none ∧ ropeCharToLineJ r i = none ∧
    ropeGetLineJ r i = none ∧ ropeLineLenJ r i = none := by
  obtain ⟨hi1, hi2⟩ := hneg
  have hJi : 2 ^ 64 - 2 ^ 31 ≤ jintToUsize i ∧ jintToUsize i < 2 ^ 64 := by
    unfold jintToUsize
    omega
  have hJb : jintToUsize b < 2 ^ 31 ∨ 2 ^ 64 - 2 ^ 31 ≤ jintToUsize b := by
    unfold jintToUsize
    omega
  have hlen : lenChars r = r.length := rfl
  have hlines := lenLines_le r
  have hsl : (splitLines r).length = lenLines r := rfl
  have hgl : ropeGetLine r (jintToUsize i) = none := by
    rw [ropeGetLine, List.get?_eq_none.mpr (by omega)]
  refine ⟨by omega, by omega, ?_, ?_, ?_, ?_, ?_, ?_, ?_, ?_, ?_, ?_⟩
  · rw [ropeInsertJ, ropeInsert, if_neg (by omega)]
  · have : r.length ≤ jintToUsize i := by omega
    rw [ropeGetCharJ, ropeGetChar, charAt, List.get?_eq_none.mpr this,
      Option.map_none']
  · rw [ropeRemoveJ, ropeRemove, if_neg (fun hcl => by omega)]
  · rw [ropeRemoveJ, ropeRemove, if_neg (fun hcl => by omega)]
  · rw [ropeSliceJ, ropeSlice, if_neg (fun hcl => by omega)]
  · rw [ropeSliceJ, ropeSlice, if_neg (fun hcl => by omega)]
  · rw [ropeLineToCharJ, ropeLineToChar, if_neg (by omega)]
  · rw [ropeCharToLineJ, ropeCharToLine, if_neg (by omega)]
  · rw [ropeGetLineJ]
    exact hgl
  · rw [ropeLineLenJ, ropeLineLen, hgl, Option.map_none']

/-- C10 witness: index `-1` on the one-char document `"a"`. -/
theorem negativeIndex_rejected_witness :
    2 ^ 63 - 2 ^ 31 ≤ jintToUsize (-1) ∧ jintToUsize (-1) ≠ 0 ∧
    ropeInsertJ (createRope "a") (-1) [] = none ∧
    ropeGetCharJ (createRope "a") (-1) = none ∧
    ropeRemoveJ (createRope "a") (-1) 0 = none ∧
    ropeRemoveJ (createRope "a") 0 (-1) = none ∧
    ropeSliceJ (createRope "a") (-1) 0 = none ∧
    ropeSliceJ (createRope "a") 0 (-1) = none ∧
    ropeLineToCharJ (createRope "a") (-1) = none ∧
    ropeCharToLineJ (createRope "a") (-1) = none ∧
    ropeGetLineJ (createRope "a") (-1) = none ∧
    ropeLineLenJ (createRope "a") (-1) = none :=
  negativeIndex_rejected (-1) 0 0 (createRope "a") []
    (by decide) (by decide) (by decide) (by decide)

end CodeEditor
